import Mathlib

/-!
A verification development for the Skip+ overlay maintenance code in
`vaud/skip.py`.  The Python functions are embedded shallowly: random bit
strings become `List Bool` (most significant bit first), Python sets become
Lean lists (membership-based statements are order-insensitive; where the
source's behaviour genuinely depends on set iteration order this is made
explicit), and remote invocations become explicit call lists emitted next to
the state transition.
-/

set_option autoImplicit false

/-- Length of the random bit string in bytes (`RS_BYTE_LENGTH = 2`). -/
def RS_BYTE_LENGTH : Nat := 2

/-- Length of the random bit string in bits (`RS_BIT_LENGTH = RS_BYTE_LENGTH * 8`). -/
def RS_BIT_LENGTH : Nat := RS_BYTE_LENGTH * 8

/-- Lexicographic strict order on bit strings, most significant bit first;
this is `bitarray.__lt__` for the `rs` values compared by the source. -/
def bitsLt : List Bool → List Bool → Bool
  | [], [] => false
  | [], _ :: _ => true
  | _ :: _, [] => false
  | a :: as, b :: bs => (!a && b) || (a == b && bitsLt as bs)

/-- A Skip+ node reference carrying its random bit string.  In the source this
is `SkipNodeReference` with `_rs` present; the protocol functions below only
ever receive references whose `rs` is set.  Equality is by
`(host, port, rs)`, modelled from the spec (the `__eq__` of `NodeReference`
lives in `vaud/core.py`, which is not under `src/`). -/
structure SkipRef where
  host : String
  port : Nat
  rs : List Bool
deriving DecidableEq

/-- References extended with the two pseudo references `lowest` and
`highest` used by `pred` and `succ`. -/
inductive ERef where
  | lowestE
  | node (r : SkipRef)
  | highestE
deriving DecidableEq

/-- Modelled from the spec: references are totally ordered by `rs`
(lexicographic), with `lowest` strictly below and `highest` strictly above
every real reference (`PseudoNodeReference` ordering is in `vaud/core.py`,
not under `src/`). -/
def ltE : ERef → ERef → Bool
  | ERef.lowestE, ERef.lowestE => false
  | ERef.lowestE, _ => true
  | ERef.node _, ERef.lowestE => false
  | ERef.node a, ERef.node b => bitsLt a.rs b.rs
  | ERef.node _, ERef.highestE => true
  | ERef.highestE, _ => false

/-- Modelled from the spec: non-strict version of the order by `rs`. -/
def leE : ERef → ERef → Bool
  | ERef.lowestE, _ => true
  | _, ERef.highestE => true
  | ERef.node a, ERef.node b => !(bitsLt b.rs a.rs)
  | ERef.highestE, _ => false
  | ERef.node _, ERef.lowestE => false

/-- Python `max` over a non-empty list: keep the current maximum and replace
it only when a strictly greater element appears (the first maximal element
in iteration order wins). -/
def pyMaxFrom (acc : ERef) : List ERef → ERef
  | [] => acc
  | x :: xs => pyMaxFrom (if ltE acc x then x else acc) xs

/-- Python `max(list)`.  Callers below always pass a list ending in a
sentinel, so the empty case is unreachable. -/
def pyMaxList : List ERef → ERef
  | [] => ERef.lowestE
  | x :: xs => pyMaxFrom x xs

/-- Python `min` over a non-empty list, first minimal element wins. -/
def pyMinFrom (acc : ERef) : List ERef → ERef
  | [] => acc
  | x :: xs => pyMinFrom (if ltE x acc then x else acc) xs

/-- Python `min(list)`.  Callers below always pass a list ending in a
sentinel, so the empty case is unreachable. -/
def pyMinList : List ERef → ERef
  | [] => ERef.highestE
  | x :: xs => pyMinFrom x xs

/-- Python two-argument `max(a, b)`: `b` wins only when strictly greater. -/
def pyMax2 (a b : ERef) : ERef := if ltE a b then b else a

/-- Python two-argument `min(a, b)`: `b` wins only when strictly smaller. -/
def pyMin2 (a b : ERef) : ERef := if ltE b a then b else a

/-- `prefix(i, v)`: the first `i` bits of `v`'s random bit string. -/
def prefixBits (i : Nat) (v : SkipRef) : List Bool := v.rs.take i

/-- `pred(v, W) = max([w for w in W if w < v] + [lowest])`. -/
def pred (v : SkipRef) (W : List SkipRef) : ERef :=
  pyMaxList (((W.filter (fun w => bitsLt w.rs v.rs)).map ERef.node) ++ [ERef.lowestE])

/-- `succ(v, W) = min([w for w in W if w > v] + [highest])`. -/
def succ (v : SkipRef) (W : List SkipRef) : ERef :=
  pyMinList (((W.filter (fun w => bitsLt v.rs w.rs)).map ERef.node) ++ [ERef.highestE])

/-- `_levelNodes(i, v, x, N) = {w ∈ N | prefix(i+1, w) = prefix(i, v)◦x}`. -/
def levelNodes (i : Nat) (v : SkipRef) (x : Bool) (N : List SkipRef) : List SkipRef :=
  N.filter (fun w => prefixBits (i + 1) w == prefixBits i v ++ [x])

/-- `levelPred(i, v, x, N) = pred(v, _levelNodes(i, v, x, N))`. -/
def levelPred (i : Nat) (v : SkipRef) (x : Bool) (N : List SkipRef) : ERef :=
  pred v (levelNodes i v x N)

/-- `levelSucc(i, v, x, N) = succ(v, _levelNodes(i, v, x, N))`. -/
def levelSucc (i : Nat) (v : SkipRef) (x : Bool) (N : List SkipRef) : ERef :=
  succ v (levelNodes i v x N)

/-- `low(i, v, N) = min(levelPred(i, v, 0, N), levelPred(i, v, 1, N))`. -/
def low (i : Nat) (v : SkipRef) (N : List SkipRef) : ERef :=
  pyMin2 (levelPred i v false N) (levelPred i v true N)

/-- `high(i, v, N) = max(levelSucc(i, v, 0, N), levelSucc(i, v, 1, N))`
(the source's body; its docstring instead says `max{levelPred(…)}`). -/
def high (i : Nat) (v : SkipRef) (N : List SkipRef) : ERef :=
  pyMax2 (levelSucc i v false N) (levelSucc i v true N)

/-- `skipRange(i, v, N) = {w ∈ N | prefix(i, w) = prefix(i, v) ∧ l ≤ w ≤ h}`
with `l = low(i, v, N)` and `h = high(i, v, N)`. -/
def skipRange (i : Nat) (v : SkipRef) (N : List SkipRef) : List SkipRef :=
  let l := low i v N
  let h := high i v N
  N.filter (fun w =>
    prefixBits i w == prefixBits i v && leE l (ERef.node w) && leE (ERef.node w) h)

/-- `commonPrefixLength(v, w)`: number of leading positions where the two
bit strings agree. -/
def commonPrefixLength : List Bool → List Bool → Nat
  | a :: as, b :: bs => if a == b then commonPrefixLength as bs + 1 else 0
  | _, _ => 0

/-- The accumulator loop of Python `max(W, key=...)`: a later element
replaces the current maximum only when its key is strictly greater, so the
first maximiser in iteration order is returned. -/
def lcpnFrom (w acc : SkipRef) : List SkipRef → SkipRef
  | [] => acc
  | x :: xs =>
      lcpnFrom w
        (if commonPrefixLength acc.rs w.rs < commonPrefixLength x.rs w.rs then x else acc) xs

/-- `longestCommonPrefixNode(w, W) = max(W, key=lambda x: commonPrefixLength(x.rs, w.rs))`.
Python `max` raises on an empty iterable, modelled as `none`. -/
def longestCommonPrefixNode (w : SkipRef) : List SkipRef → Option SkipRef
  | [] => none
  | x :: xs => some (lcpnFrom w x xs)

/-- The mutable state of a `SkipNode`: its own reference, the outgoing
neighbourhood `N`, the per-level range cache `_ranges` (a list of
`RS_BIT_LENGTH - 1` levels, mirroring the source's dict over
`range(RS_BIT_LENGTH - 1)`), and `_nodesInRanges`. -/
structure SkipNodeState where
  reference : SkipRef
  N : List SkipRef
  ranges : List (List SkipRef)
  nodesInRanges : List SkipRef
deriving DecidableEq

/-- `SkipNode.__init__`: empty neighbourhood, empty range for each of the
`RS_BIT_LENGTH - 1` levels, empty `_nodesInRanges`. -/
def initState (v : SkipRef) : SkipNodeState :=
  { reference := v
    N := []
    ranges := List.replicate (RS_BIT_LENGTH - 1) []
    nodesInRanges := [] }

/-- `SkipNode.updateRanges`, translated faithfully: the local variable
`nodesInRanges` starts empty and the loop's `nodesInRanges.union(...)`
DISCARDS its result (Python `set.union` returns a new set), so the field
`_nodesInRanges` is always assigned the empty set, while `_ranges[i]` is
recomputed as `skipRange(i, self.reference, self.N)` for every level. -/
def updateRanges (st : SkipNodeState) : SkipNodeState :=
  { st with
    ranges := (List.range (RS_BIT_LENGTH - 1)).map (fun i => skipRange i st.reference st.N)
    nodesInRanges := [] }

/-- `SkipNode.linearise(u)`.  The returned list holds the outgoing remote
delegation calls `(destination, w)` meaning `destination.linearise(w)`.
The delegation branch is translated even though, with the faithful
`updateRanges` above, `_nodesInRanges` is always empty and the branch is
dead. -/
def linearise (st : SkipNodeState) (u : SkipRef) : SkipNodeState × List (SkipRef × SkipRef) :=
  if u = st.reference ∨ u ∈ st.N then (st, [])
  else
    let st1 : SkipNodeState := { st with N := st.N ++ [u] }
    let st2 := updateRanges st1
    if st2.nodesInRanges.isEmpty then (st2, [])
    else
      let undesirableNodes := st2.N.filter (fun w => !(st2.nodesInRanges.contains w))
      let st3 : SkipNodeState := { st2 with N := st2.nodesInRanges }
      let calls := undesirableNodes.filterMap
        (fun w => (longestCommonPrefixNode w st3.N).map (fun d => (d, w)))
      (st3, calls)

/-- The state after `linearise(u)` (the emitted delegation calls dropped). -/
def lineariseSt (st : SkipNodeState) (u : SkipRef) : SkipNodeState :=
  (linearise st u).1

/-- `k` successive invocations of `linearise` with the same argument. -/
def lineariseIter (st : SkipNodeState) (u : SkipRef) : Nat → SkipNodeState
  | 0 => st
  | k + 1 => lineariseSt (lineariseIter st u k) u

/-- The states a single node's fields can reach: the constructor state,
followed by any sequence of `linearise` calls.  (`timeout` only reads the
node's own fields; the `linearise` calls it emits land on other nodes, or
arrive back here as further `linearise` steps.) -/
inductive Reachable : SkipNodeState → Prop
  | start (v : SkipRef) : Reachable (initState v)
  | step (st : SkipNodeState) (u : SkipRef) (h : Reachable st) : Reachable (lineariseSt st u)

/-- The local operations that can run on a node.  `timeout` leaves the
node's own fields untouched (it only emits calls); a `linearise` it causes
on this same node appears as a separate `lin` operation. -/
inductive NodeOp where
  | lin (u : SkipRef)
  | tmo

/-- Effect of one local operation on the node's own state. -/
def applyOp (st : SkipNodeState) : NodeOp → SkipNodeState
  | NodeOp.lin u => lineariseSt st u
  | NodeOp.tmo => st

/-- Stable ascending insertion by the source's `<` on references. -/
def insertAsc (x : SkipRef) : List SkipRef → List SkipRef
  | [] => [x]
  | y :: ys => if bitsLt x.rs y.rs then x :: y :: ys else y :: insertAsc x ys

/-- Python `list.sort()` on references (ascending by `rs`). -/
def sortAsc : List SkipRef → List SkipRef
  | [] => []
  | x :: xs => insertAsc x (sortAsc xs)

/-- Descending insertion by the source's `<` on references. -/
def insertDesc (x : SkipRef) : List SkipRef → List SkipRef
  | [] => [x]
  | y :: ys => if bitsLt y.rs x.rs then x :: y :: ys else y :: insertDesc x ys

/-- Python `list.sort(reverse=True)` on references (descending by `rs`). -/
def sortDesc : List SkipRef → List SkipRef
  | [] => []
  | x :: xs => insertDesc x (sortDesc xs)

/-- Part a of `timeout` for one sorted side `r`:
`for i in range(len(r)-1): r[i].linearise(r[i+1])`, then
`if len(r) > 0: r[-1].linearise(self.reference)`. -/
def partACalls (r : List SkipRef) (selfRef : SkipRef) : List (SkipRef × SkipRef) :=
  ((List.range (r.length - 1)).map (fun k => (r.getD k selfRef, r.getD (k + 1) selfRef)))
    ++ (if r.isEmpty then [] else [(r.getLastD selfRef, selfRef)])

/-- One iteration of `timeout`'s outer loop at level `lvl`, translated
faithfully: Part a's inner loops REUSE the Python variable `i`, so after
Part a the name `i` holds `len(rightRange) - 2` if that loop ran, else
`len(leftRange) - 2` if that one ran, else still `lvl`; Part b's
`skipRange(i, v, self.N)` then uses that leftover value (`iShadow` below),
not necessarily the level. -/
def timeoutLevelCalls (st : SkipNodeState) (lvl : Nat) : List (SkipRef × SkipRef) :=
  let levelRange := st.ranges.getD lvl []
  let leftRange := sortAsc (levelRange.filter (fun x => bitsLt x.rs st.reference.rs))
  let rightRange := sortDesc (levelRange.filter (fun x => bitsLt st.reference.rs x.rs))
  let partA := partACalls leftRange st.reference ++ partACalls rightRange st.reference
  let iShadow :=
    if 2 ≤ rightRange.length then rightRange.length - 2
    else if 2 ≤ leftRange.length then leftRange.length - 2
    else lvl
  let bridge := fun (A B : List SkipRef) =>
    match B.getLast? with
    | none => []
    | some c =>
        (A.filter (fun v => (skipRange iShadow v st.N).contains c)).map (fun v => (v, c))
  partA ++ bridge leftRange rightRange ++ bridge rightRange leftRange

/-- `SkipNode.timeout`: the full list of emitted `target.linearise(arg)`
calls, `(target, arg)` pairs over all levels.  The node's own fields are
not modified. -/
def timeoutCalls (st : SkipNodeState) : List (SkipRef × SkipRef) :=
  ((List.range (RS_BIT_LENGTH - 1)).map (fun lvl => timeoutLevelCalls st lvl)).flatten

/-! ### The `SkipNodeReference.rs` property and the factory -/

/-- The error kinds of the remote-invocation substrate, per the spec's §7
taxonomy.  `missingRs` names the error raised when a Skip+ reference is
used without an `rs` value (an `AttributeError` in the source). -/
inductive RemoteErrorKind where
  | transportError
  | remoteMethodError
  | unknownMethod
  | unknownType
  | stopped
  | missingRs
deriving DecidableEq

/-- `SkipNodeReference` as constructed: `host`, `port`, and the private
`_rs`, which is `None` when the constructor was not given one. -/
structure SkipNodeReference where
  host : String
  port : Nat
  rsStored : Option (List Bool)
deriving DecidableEq

/-- `SkipNodeReference.__init__(host, port, rs)` with `rs` defaulting to
`None`. -/
def mkSkipNodeReference (host : String) (port : Nat) (rs : Option (List Bool)) :
    SkipNodeReference :=
  { host := host, port := port, rsStored := rs }

/-- The `rs` property getter: raises (modelled as `missingRs`, the spec's
name for this error kind) when `_rs is None`, else returns the stored
value. -/
def SkipNodeReference.rsGet (r : SkipNodeReference) : Except RemoteErrorKind (List Bool) :=
  match r.rsStored with
  | none => Except.error RemoteErrorKind.missingRs
  | some v => Except.ok v

/-- A remote call emitted by the factory machinery: the target node's
reference and the method with its argument.  `introduceTo` records the
source's `self.nodes[0].introduce(...)` call — `SkipNode` defines no
`introduce` method, so this is kept distinct from `lineariseTo`. -/
inductive FactoryCall where
  | lineariseTo (node : SkipRef) (arg : SkipRef)
  | introduceTo (node : SkipRef) (arg : SkipRef)
deriving DecidableEq

/-- `SkipNodeFactory` state: the local nodes in creation order (by their
references) and `entryNodeReference` (set once the entry node's `rs`
reply has arrived). -/
structure FactoryState where
  nodes : List SkipRef
  entryNodeReference : Option SkipRef
deriving DecidableEq

/-- Events driving the factory: creation of a local node (its fresh
reference given) and the arrival of the entry node's `rs` reply. -/
inductive FactoryEvent where
  | newNode (r : SkipRef)
  | gotEntryNodeRs (e : SkipRef)

/-- One factory step.
`newNode` is modelled from the spec (§4.4: `NodeFactory.newNode` lives in
`vaud/core.py`, which is not under `src/`): it constructs the node on the
next port and hands it to `_initNode` with `isFirstNode` true exactly when
no local node exists yet, then records it.  `_initNode` and
`_gotEntryNodeRs` are translated from `src/vaud/skip.py`: `_initNode`
invokes `node.linearise(entryNodeReference)` for the first node when the
entry reference is already available, and `node.linearise(self.nodes[-1].reference)`
otherwise; `_gotEntryNodeRs` stores the entry reference and invokes
`self.nodes[0].introduce(entryNodeReference)` when a node already exists. -/
def factoryStep (st : FactoryState) : FactoryEvent → FactoryState × List FactoryCall
  | FactoryEvent.newNode r =>
      let isFirstNode := st.nodes.isEmpty
      let calls :=
        if isFirstNode then
          match st.entryNodeReference with
          | some e => [FactoryCall.lineariseTo r e]
          | none => []
        else
          match st.nodes.getLast? with
          | some prev => [FactoryCall.lineariseTo r prev]
          | none => []
      ({ st with nodes := st.nodes ++ [r] }, calls)
  | FactoryEvent.gotEntryNodeRs e =>
      let st1 : FactoryState := { st with entryNodeReference := some e }
      let calls :=
        match st1.nodes.head? with
        | some n0 => [FactoryCall.introduceTo n0 e]
        | none => []
      (st1, calls)

/-- Run a sequence of factory events, accumulating the emitted calls. -/
def factoryRun (st : FactoryState) : List FactoryEvent → FactoryState × List FactoryCall
  | [] => (st, [])
  | ev :: evs =>
      let (st1, cs) := factoryStep st ev
      let (st2, cs') := factoryRun st1 evs
      (st2, cs ++ cs')

/-! ### Concrete references used by the closed theorems -/

/-- The `w`-bit big-endian bit string of `n`. -/
def bitsOfNat (w n : Nat) : List Bool :=
  (List.range w).map (fun k => n.testBit (w - 1 - k))

/-- Concrete reference with rs `0x0000`. -/
def refA : SkipRef := { host := "", port := 1, rs := bitsOfNat 16 0x0000 }

/-- Concrete reference with rs `0x0001`. -/
def refB : SkipRef := { host := "", port := 2, rs := bitsOfNat 16 0x0001 }

/-- Concrete reference with rs `0x4000`. -/
def refC : SkipRef := { host := "", port := 3, rs := bitsOfNat 16 0x4000 }

/-- Concrete reference with rs `0x6000`; used as the acting node. -/
def refV : SkipRef := { host := "", port := 4, rs := bitsOfNat 16 0x6000 }

/-- Concrete reference with rs `0x8000`. -/
def refD : SkipRef := { host := "", port := 5, rs := bitsOfNat 16 0x8000 }

/-- Concrete reference with rs `0xC000`. -/
def refE : SkipRef := { host := "", port := 6, rs := bitsOfNat 16 0xC000 }

/-- The neighbourhood `{refA, refB, refC, refD}` of the acting node `refV`. -/
def nbhdV : List SkipRef := [refA, refB, refC, refD]

/-- The acting node's state after its ranges have been brought up to date
for the neighbourhood `nbhdV`. -/
def stV : SkipNodeState := updateRanges { initState refV with N := nbhdV }

/-! ### Shared lemmas -/

/-- `linearise` either no-ops (when `u` is the node's own reference or
already a neighbour) or adds `u` to `N` and recomputes the ranges; with the
source's `updateRanges`, `_nodesInRanges` is then empty, so the pruning
branch is never entered. -/
theorem lineariseSt_eq (st : SkipNodeState) (u : SkipRef) :
    lineariseSt st u =
      if u = st.reference ∨ u ∈ st.N then st
      else updateRanges { st with N := st.N ++ [u] } := by
  by_cases h : u = st.reference ∨ u ∈ st.N
  · simp [lineariseSt, linearise, h]
  · simp [lineariseSt, linearise, h, updateRanges]

/-- In every reachable state, `_nodesInRanges` is empty: the constructor
sets it empty and `updateRanges` discards the unions. -/
theorem nodesInRanges_of_reachable (st : SkipNodeState) (h : Reachable st) :
    st.nodesInRanges = [] := by
  induction h with
  | start v => rfl
  | step st u _ ih =>
      rw [lineariseSt_eq]
      split
      · exact ih
      · rfl

/-- `skipRange` over an empty neighbourhood is empty. -/
theorem skipRange_nil (i : Nat) (v : SkipRef) : skipRange i v [] = [] := rfl

/-- Auxiliary: the constructor's range table equals the recomputed one for
an empty neighbourhood. -/
theorem range_map_skipRange_nil (v : SkipRef) (n : Nat) :
    (List.range n).map (fun i => skipRange i v []) = List.replicate n [] := by
  induction n with
  | zero => rfl
  | succ n ih =>
      rw [List.range_succ, List.map_append, ih, List.replicate_succ']
      rfl

/-- In every reachable state the range table is exactly the recomputation
`ranges[i] = skipRange(i, self.reference, N)` for the current `N`. -/
theorem ranges_of_reachable (st : SkipNodeState) (h : Reachable st) :
    st.ranges = (List.range (RS_BIT_LENGTH - 1)).map
      (fun i => skipRange i st.reference st.N) := by
  induction h with
  | start v => exact (range_map_skipRange_nil v (RS_BIT_LENGTH - 1)).symm
  | step st u _ ih =>
      rw [lineariseSt_eq]
      split
      · exact ih
      · rfl

/-- When `u` is the node's own reference or already in `N`, `linearise(u)`
leaves the whole node state unchanged. -/
theorem lineariseSt_noop (st : SkipNodeState) (u : SkipRef)
    (h : u = st.reference ∨ u ∈ st.N) : lineariseSt st u = st := by
  rw [lineariseSt_eq, if_pos h]

/-- `linearise` is idempotent on the whole node state. -/
theorem lineariseSt_idem (st : SkipNodeState) (u : SkipRef) :
    lineariseSt (lineariseSt st u) u = lineariseSt st u := by
  by_cases h : u = st.reference ∨ u ∈ st.N
  · rw [lineariseSt_noop st u h, lineariseSt_noop st u h]
  · have h1 : lineariseSt st u = updateRanges { st with N := st.N ++ [u] } := by
      rw [lineariseSt_eq, if_neg h]
    rw [h1]
    apply lineariseSt_noop
    right
    show u ∈ st.N ++ [u]
    simp

/-- Any positive number of repetitions of the same `linearise` collapses to
a single one. -/
theorem lineariseIter_eq (st : SkipNodeState) (u : SkipRef) (k : Nat) (hk : 1 ≤ k) :
    lineariseIter st u k = lineariseSt st u := by
  induction k with
  | zero => omega
  | succ k ih =>
      by_cases hk0 : k = 0
      · subst hk0
        rfl
      · show lineariseSt (lineariseIter st u k) u = lineariseSt st u
        rw [ih (Nat.one_le_iff_ne_zero.mpr hk0), lineariseSt_idem]

/-! ### Claim theorems -/

/-- C3: after any call to `linearise(u)` on a node completes, either `N` is
a subset of `nodesInRanges` (and when `nodesInRanges` is non-empty, `N`
equals it), or `nodesInRanges` is empty and `N` is left as it was before
pruning (the neighbourhood after the optional insertion of `u`). -/
theorem linearise_neighbourhood_soundness (st : SkipNodeState) (u : SkipRef)
    (h : Reachable st) :
    ((lineariseSt st u).N ⊆ (lineariseSt st u).nodesInRanges ∧
      ((lineariseSt st u).nodesInRanges ≠ [] →
        (lineariseSt st u).N = (lineariseSt st u).nodesInRanges)) ∨
    ((lineariseSt st u).nodesInRanges = [] ∧
      ((lineariseSt st u).N = st.N ∨ (lineariseSt st u).N = st.N ++ [u])) := by
  right
  refine ⟨nodesInRanges_of_reachable _ (Reachable.step st u h), ?_⟩
  rw [lineariseSt_eq]
  split
  · exact Or.inl rfl
  · exact Or.inr rfl

/-- Witness for C3 at the freshly constructed node `refV` and `u = refA`. -/
theorem linearise_neighbourhood_soundness_witness :
    Reachable (initState refV) ∧
    (((lineariseSt (initState refV) refA).N ⊆ (lineariseSt (initState refV) refA).nodesInRanges ∧
      ((lineariseSt (initState refV) refA).nodesInRanges ≠ [] →
        (lineariseSt (initState refV) refA).N = (lineariseSt (initState refV) refA).nodesInRanges)) ∨
    ((lineariseSt (initState refV) refA).nodesInRanges = [] ∧
      ((lineariseSt (initState refV) refA).N = (initState refV).N ∨
        (lineariseSt (initState refV) refA).N = (initState refV).N ++ [refA]))) :=
  ⟨Reachable.start refV,
    linearise_neighbourhood_soundness (initState refV) refA (Reachable.start refV)⟩

/-- C6: `linearise(u)` is idempotent — `k ≥ 1` invocations with the same
`u` leave the same final `N` as a single one, and when `u` is the node's
own reference or already in `N` the state is unchanged. -/
theorem linearise_idempotent (st : SkipNodeState) (u : SkipRef) (k : Nat)
    (hk : 1 ≤ k) :
    (lineariseIter st u k).N = (lineariseSt st u).N ∧
    ((u = st.reference ∨ u ∈ st.N) → lineariseSt st u = st) := by
  refine ⟨?_, lineariseSt_noop st u⟩
  rw [lineariseIter_eq st u k hk]

/-- Witness for C6 with three repetitions on a fresh node. -/
theorem linearise_idempotent_witness :
    1 ≤ 3 ∧
    ((lineariseIter (initState refV) refA 3).N = (lineariseSt (initState refV) refA).N ∧
    ((refA = (initState refV).reference ∨ refA ∈ (initState refV).N) →
      lineariseSt (initState refV) refA = initState refV)) :=
  ⟨by decide, linearise_idempotent (initState refV) refA 3 (by decide)⟩

/-- C10: no local operation removes a reference from `N` — each
`linearise` or `timeout` step's post-state `N` contains the pre-state `N`,
and hence so does any sequence of such operations (the pruning assignment
in `linearise` is dead because `_nodesInRanges` is always empty). -/
theorem N_monotone :
    (∀ (st : SkipNodeState) (op : NodeOp), st.N ⊆ (applyOp st op).N) ∧
    (∀ (ops : List NodeOp) (st : SkipNodeState), st.N ⊆ (ops.foldl applyOp st).N) := by
  have single : ∀ (st : SkipNodeState) (op : NodeOp), st.N ⊆ (applyOp st op).N := by
    intro st op
    cases op with
    | tmo => exact fun a ha => ha
    | lin u =>
        show st.N ⊆ (lineariseSt st u).N
        rw [lineariseSt_eq]
        split
        · exact fun a ha => ha
        · show st.N ⊆ st.N ++ [u]
          exact List.subset_append_left st.N [u]
  refine ⟨single, ?_⟩
  intro ops
  induction ops with
  | nil => exact fun st a ha => ha
  | cons op ops ih =>
      intro st
      exact fun a ha => ih (applyOp st op) (single st op ha)

/-- C8: `high(i, v, N)` is the Python `max` of the two `levelSucc` values
and `low(i, v, N)` the Python `min` of the two `levelPred` values (the
implemented successor-based form); the docstring's `max{levelPred(…)}`
form disagrees with `high` at a concrete input, so it is not what the code
computes. -/
theorem high_low_formulas :
    (∀ (i : Nat) (v : SkipRef) (N : List SkipRef),
      high i v N = pyMax2 (levelSucc i v false N) (levelSucc i v true N) ∧
      low i v N = pyMin2 (levelPred i v false N) (levelPred i v true N)) ∧
    high 0 refV [refD] ≠ pyMax2 (levelPred 0 refV false [refD]) (levelPred 0 refV true [refD]) := by
  refine ⟨fun i v N => ⟨rfl, rfl⟩, ?_⟩
  decide

/-- C9: accessing `rs` on a `SkipNodeReference` constructed without an
`rs` value fails with the `MissingRs` error kind (the source raises
`AttributeError` there); when a value was supplied, the access returns
exactly that value. -/
theorem rs_access_missing_or_stored :
    (∀ (h : String) (p : Nat),
      (mkSkipNodeReference h p none).rsGet = Except.error RemoteErrorKind.missingRs) ∧
    (∀ (h : String) (p : Nat) (r : List Bool),
      (mkSkipNodeReference h p (some r)).rsGet = Except.ok r) :=
  ⟨fun _ _ => rfl, fun _ _ _ => rfl⟩

/-- Helper: indexing the recomputed range table at a valid level yields the
`skipRange` at that level. -/
theorem getD_map_range {α : Type} (f : Nat → List α) (n i : Nat) (d : List α)
    (hi : i < n) : ((List.range n).map f).getD i d = f i := by
  rw [List.getD_eq_getElem?_getD, List.getElem?_map, List.getElem?_range hi]
  rfl

/-- C7: in every reachable state, each cached range is contained in `N`,
and each of its members shares the level's prefix with the node and lies
between `low` and `high` for the current neighbourhood. -/
theorem ranges_invariant (st : SkipNodeState) (h : Reachable st) (i : Nat)
    (w : SkipRef) (hw : w ∈ st.ranges.getD i []) :
    w ∈ st.N ∧ prefixBits i w = prefixBits i st.reference ∧
    leE (low i st.reference st.N) (ERef.node w) = true ∧
    leE (ERef.node w) (high i st.reference st.N) = true := by
  rw [ranges_of_reachable st h] at hw
  by_cases hi : i < RS_BIT_LENGTH - 1
  · rw [getD_map_range _ _ _ _ hi] at hw
    simp only [skipRange, List.mem_filter, Bool.and_eq_true, beq_iff_eq] at hw
    exact ⟨hw.1, hw.2.1.1, hw.2.1.2, hw.2.2⟩
  · exfalso
    have hlen : ((List.range (RS_BIT_LENGTH - 1)).map
        (fun j => skipRange j st.reference st.N)).length ≤ i := by
      rw [List.length_map, List.length_range]
      omega
    rw [List.getD_eq_default _ _ hlen] at hw
    exact absurd hw (List.not_mem_nil w)

/-- Witness for C7: the reachable state after one `linearise(refA)` on a
fresh node `refV`, level `0`, member `refA`. -/
theorem ranges_invariant_witness :
    (Reachable (lineariseSt (initState refV) refA) ∧
      refA ∈ (lineariseSt (initState refV) refA).ranges.getD 0 []) ∧
    (refA ∈ (lineariseSt (initState refV) refA).N ∧
      prefixBits 0 refA = prefixBits 0 (lineariseSt (initState refV) refA).reference ∧
      leE (low 0 (lineariseSt (initState refV) refA).reference
        (lineariseSt (initState refV) refA).N) (ERef.node refA) = true ∧
      leE (ERef.node refA) (high 0 (lineariseSt (initState refV) refA).reference
        (lineariseSt (initState refV) refA).N) = true) :=
  ⟨⟨Reachable.step (initState refV) refA (Reachable.start refV), by decide⟩,
    ranges_invariant (lineariseSt (initState refV) refA)
      (Reachable.step (initState refV) refA (Reachable.start refV)) 0 refA (by decide)⟩

/-- C1 (code bug): `updateRanges` recomputes `ranges[0] = skipRange(0, v, N)`
(here `refA` lands in it) yet leaves `_nodesInRanges` empty, because the
loop's `nodesInRanges.union(currentLevelRange)` discards its result — so
`nodesInRanges` is NOT the union of the ranges, contradicting the claim. -/
theorem updateRanges_discards_union :
    refA ∈ (updateRanges { initState refV with N := [refA] }).ranges.getD 0 [] ∧
    (updateRanges { initState refV with N := [refA] }).nodesInRanges = [] := by
  constructor
  · decide
  · rfl

/-- C2 (code bug): at the state `stV` (node `refV`, neighbourhood
`{refA, refB, refC, refD}`, ranges up to date), level 0 partitions into
`left = [refA, refB, refC]` and `right = [refD]`; the closest right node
`refD` lies in `skipRange(0, refA, N)`, so the claim requires the bridge
call `refA.linearise(refD)` — but `timeout` never emits it: Part a's inner
loop reuses the Python variable `i` (here leaving `i = 1`), and Part b's
membership test runs at that leftover index instead of the level. -/
theorem timeout_bridges_at_wrong_level :
    refD ∈ skipRange 0 refA nbhdV ∧
    sortAsc ((stV.ranges.getD 0 []).filter (fun x => bitsLt x.rs stV.reference.rs))
      = [refA, refB, refC] ∧
    sortDesc ((stV.ranges.getD 0 []).filter (fun x => bitsLt stV.reference.rs x.rs))
      = [refD] ∧
    (refA, refD) ∉ timeoutCalls stV := by
  refine ⟨by decide, by decide, by decide, by decide⟩

/-- C4 (code bug): when the first local node is created before the entry
node's `rs` reply arrives, `_gotEntryNodeRs` invokes
`self.nodes[0].introduce(entryRef)` — a method `SkipNode` does not define —
and no `linearise(entryRef)` is ever issued; the other two creation paths
do behave as the claim states. -/
theorem factory_entry_introduce_not_linearise :
    (factoryRun { nodes := [], entryNodeReference := none }
        [FactoryEvent.newNode refA, FactoryEvent.gotEntryNodeRs refE]).2
      = [FactoryCall.introduceTo refA refE] ∧
    (factoryRun { nodes := [], entryNodeReference := none }
        [FactoryEvent.gotEntryNodeRs refE, FactoryEvent.newNode refA]).2
      = [FactoryCall.lineariseTo refA refE] ∧
    (factoryRun { nodes := [], entryNodeReference := none }
        [FactoryEvent.newNode refA, FactoryEvent.newNode refB]).2
      = [FactoryCall.lineariseTo refB refA] := by
  refine ⟨rfl, rfl, rfl⟩

/-- Helper for C5: the accumulator loop of `longestCommonPrefixNode`
returns the first maximiser of the key among `acc :: xs` — everything
before it has a strictly smaller key, everything after at most its key. -/
theorem lcpnFrom_split (w : SkipRef) (xs : List SkipRef) :
    ∀ acc : SkipRef,
      ∃ l₁ l₂, acc :: xs = l₁ ++ lcpnFrom w acc xs :: l₂ ∧
        (∀ y ∈ l₁,
          commonPrefixLength y.rs w.rs < commonPrefixLength (lcpnFrom w acc xs).rs w.rs) ∧
        (∀ y ∈ l₂,
          commonPrefixLength y.rs w.rs ≤ commonPrefixLength (lcpnFrom w acc xs).rs w.rs) := by
  induction xs with
  | nil =>
      intro acc
      exact ⟨[], [], rfl, fun y hy => absurd hy (List.not_mem_nil y),
        fun y hy => absurd hy (List.not_mem_nil y)⟩
  | cons x xs ih =>
      intro acc
      by_cases hc : commonPrefixLength acc.rs w.rs < commonPrefixLength x.rs w.rs
      · have heq : lcpnFrom w acc (x :: xs) = lcpnFrom w x xs := by
          simp [lcpnFrom, hc]
        obtain ⟨l₁, l₂, hsplit, hl₁, hl₂⟩ := ih x
        have hxle : commonPrefixLength x.rs w.rs
            ≤ commonPrefixLength (lcpnFrom w x xs).rs w.rs := by
          cases l₁ with
          | nil =>
              have hs := hsplit
              rw [List.nil_append] at hs
              injection hs with h1 _
              exact (congrArg (fun z => commonPrefixLength z.rs w.rs) h1).le
          | cons a l₁' =>
              have hs := hsplit
              rw [List.cons_append] at hs
              injection hs with h1 _
              have hxa : commonPrefixLength x.rs w.rs = commonPrefixLength a.rs w.rs :=
                congrArg (fun z => commonPrefixLength z.rs w.rs) h1
              exact hxa.trans_le (le_of_lt (hl₁ a (List.mem_cons_self a l₁')))
        refine ⟨acc :: l₁, l₂, ?_, ?_, ?_⟩
        · rw [heq, List.cons_append, ← hsplit]
        · intro y hy
          rw [heq]
          rcases List.mem_cons.mp hy with h | h
          · rw [h]
            exact lt_of_lt_of_le hc hxle
          · exact hl₁ y h
        · intro y hy
          rw [heq]
          exact hl₂ y hy
      · have heq : lcpnFrom w acc (x :: xs) = lcpnFrom w acc xs := by
          simp [lcpnFrom, hc]
        obtain ⟨l₁, l₂, hsplit, hl₁, hl₂⟩ := ih acc
        cases l₁ with
        | nil =>
            have hs := hsplit
            rw [List.nil_append] at hs
            injection hs with h1 h2
            refine ⟨[], x :: xs, ?_, fun y hy => absurd hy (List.not_mem_nil y), ?_⟩
            · rw [heq, List.nil_append, ← h1]
            · intro y hy
              rw [heq]
              rcases List.mem_cons.mp hy with h | h
              · rw [h, ← h1]
                exact Nat.le_of_not_lt hc
              · exact hl₂ y (h2 ▸ h)
        | cons a l₁' =>
            have hs := hsplit
            rw [List.cons_append] at hs
            injection hs with h1 h2
            have hacclt : commonPrefixLength acc.rs w.rs
                < commonPrefixLength (lcpnFrom w acc xs).rs w.rs :=
              (congrArg (fun z => commonPrefixLength z.rs w.rs) h1).trans_lt
                (hl₁ a (List.mem_cons_self a l₁'))
            refine ⟨acc :: x :: l₁', l₂, ?_, ?_, ?_⟩
            · rw [heq, List.cons_append, List.cons_append, ← h2]
            · intro y hy
              rw [heq]
              rcases List.mem_cons.mp hy with h | h
              · rw [h]
                exact hacclt
              · rcases List.mem_cons.mp h with h' | h'
                · rw [h']
                  exact lt_of_le_of_lt (Nat.le_of_not_lt hc) hacclt
                · exact hl₁ y (List.mem_cons_of_mem a h')
            · intro y hy
              rw [heq]
              exact hl₂ y hy

/-- C5 (amended): for non-empty `W`, `longestCommonPrefixNode(w, W)`
returns an element of `W` maximising `commonPrefixLength(x.rs, w.rs)` —
specifically the FIRST maximiser in `W`'s iteration order (every earlier
element has a strictly smaller key); ties are resolved by iteration order,
not by the order on `rs`. -/
theorem lcpn_first_maximiser (w : SkipRef) (W : List SkipRef) (hW : W ≠ []) :
    ∃ r l₁ l₂, longestCommonPrefixNode w W = some r ∧ r ∈ W ∧
      (∀ y ∈ W, commonPrefixLength y.rs w.rs ≤ commonPrefixLength r.rs w.rs) ∧
      W = l₁ ++ r :: l₂ ∧
      (∀ y ∈ l₁, commonPrefixLength y.rs w.rs < commonPrefixLength r.rs w.rs) ∧
      (∀ y ∈ l₂, commonPrefixLength y.rs w.rs ≤ commonPrefixLength r.rs w.rs) := by
  cases W with
  | nil => exact absurd rfl hW
  | cons x xs =>
      obtain ⟨l₁, l₂, hsplit, hl₁, hl₂⟩ := lcpnFrom_split w xs x
      refine ⟨lcpnFrom w x xs, l₁, l₂, rfl, ?_, ?_, hsplit, hl₁, hl₂⟩
      · rw [hsplit]
        exact List.mem_append_right l₁ (List.mem_cons_self _ l₂)
      · intro y hy
        rw [hsplit] at hy
        rcases List.mem_append.mp hy with h | h
        · exact le_of_lt (hl₁ y h)
        · rcases List.mem_cons.mp h with h' | h'
          · rw [h']
          · exact hl₂ y h'

/-- Witness for C5 (amended) on the concrete pair `[refD, refE]` with
`w = refA`. -/
theorem lcpn_first_maximiser_witness :
    ([refD, refE] : List SkipRef) ≠ [] ∧
    (∃ r l₁ l₂, longestCommonPrefixNode refA [refD, refE] = some r ∧ r ∈ [refD, refE] ∧
      (∀ y ∈ [refD, refE],
        commonPrefixLength y.rs refA.rs ≤ commonPrefixLength r.rs refA.rs) ∧
      [refD, refE] = l₁ ++ r :: l₂ ∧
      (∀ y ∈ l₁, commonPrefixLength y.rs refA.rs < commonPrefixLength r.rs refA.rs) ∧
      (∀ y ∈ l₂, commonPrefixLength y.rs refA.rs ≤ commonPrefixLength r.rs refA.rs)) :=
  ⟨by decide, lcpn_first_maximiser refA [refD, refE] (by decide)⟩

/-- C5 (counterexample): `refD` and `refE` are distinct references with the
same common-prefix length against `refA`; the two permutations of the same
two-element set make `longestCommonPrefixNode` return different elements,
so the tie is decided by the set's iteration order and NOT by the order on
`rs` (no function of the set and `w` alone matches the source). -/
theorem lcpn_tie_depends_on_iteration_order :
    longestCommonPrefixNode refA [refD, refE] = some refD ∧
    longestCommonPrefixNode refA [refE, refD] = some refE ∧
    refD ≠ refE ∧
    commonPrefixLength refD.rs refA.rs = commonPrefixLength refE.rs refA.rs ∧
    bitsLt refD.rs refE.rs = true ∧
    [refD, refE].Perm [refE, refD] := by
  refine ⟨by decide, by decide, by decide, by decide, by decide, by decide⟩
